import Mathlib

/-!
Shallow embedding of the ai-clip-gen backend (src/backend/main.py).

The embedding models:
  * `detect_visual_peaks` (main.py lines 71-122): frame-difference peak
    detection.  A video is modelled as its frame rate, the frame count
    reported by the container metadata, and the list of decodable frames.
    Each frame is modelled as the 40x40 grayscale signature the code
    computes with `cv2.resize` + `cv2.cvtColor` (both deterministic), i.e.
    a list of pixel luminance values.
  * `process_video` (main.py lines 127-168): the job orchestrator.  The
    external encoder (`subprocess.run(cmd)`) is modelled as an oracle
    `ffrun : List String -> Bool` giving, for each command line, whether the
    returncode was zero.  The uploads directory is modelled as the list of
    file paths it contains; `os.remove` on a missing path raises, which the
    surrounding `except` turns into an `error` write.
  * `handle_process` (main.py lines 174-211): the synchronous part of job
    creation, returning the seeded Job Store entry and which background
    work (if any) was spawned.

Python's stable `list.sort` / `sorted` are modelled by stable insertion
sorts (`sortDesc` by score, `sortAsc` on timestamps); Python `int()` on a
float truncates toward zero, modelled by `pyInt` on rationals.
-/

/-- A decoded frame, abstracted to its 40x40 grayscale signature: the list
of pixel luminance values used by the frame-difference score. -/
abbrev Frame := List Nat

/-- A source video: frame rate as reported by `cv2.CAP_PROP_FPS`, frame
count as reported by `cv2.CAP_PROP_FRAME_COUNT` (metadata, may exceed the
number of actually decodable frames), and the decodable frames. -/
structure Video where
  fps : ℚ
  total_frames : ℕ
  frames : List Frame
deriving DecidableEq

/-- Sum of pixel-wise absolute differences (`np.sum(cv2.absdiff(a, b))`,
main.py lines 104-105). -/
def absdiffSum (a b : Frame) : ℕ :=
  (List.zipWith (fun x y => (x - y) + (y - x)) a b).sum

/-- Python `int()` on a rational: truncation toward zero. -/
def pyInt (q : ℚ) : ℤ := q.num.tdiv q.den

/-- `fps = cap.get(cv2.CAP_PROP_FPS) or 30` (main.py line 77): Python `or`
replaces a falsy (zero) frame rate with 30. -/
def effFps (v : Video) : ℚ := if v.fps = 0 then 30 else v.fps

/-- `step = max(1, int(fps * 2))` (main.py line 81): the sampling stride in
frames. -/
def detect_step (fps : ℚ) : ℕ := (max 1 (pyInt (fps * 2))).toNat

/-- Python `range(0, total, st)` for a positive stride `st`. -/
def strideRange (total st : ℕ) : List ℕ :=
  (List.range ((total + st - 1) / st)).map (fun k => k * st)

/-- The scan loop (main.py lines 93-108): visit each sampled frame index;
a failed read breaks the loop; otherwise record
`(frame_no / fps, absdiff-vs-previous-sample)` and move the reference. -/
def scan (idxs : List ℕ) (frames : List Frame) (fps : ℚ) (prev : Frame) :
    List (ℚ × ℕ) :=
  match idxs with
  | [] => []
  | i :: rest =>
    match frames.get? i with
    | none => []
    | some f => ((i : ℚ) / fps, absdiffSum prev f) :: scan rest frames fps f

/-- Stable insertion of a sample into a list sorted by score descending:
an element is placed before the first element whose score it strictly
exceeds is wrong for stability, so it is placed before the first element
of score less than or equal to its own only when inserted later; this
matches Python's stable `sort(key=score, reverse=True)`. -/
def insertDesc (x : ℚ × ℕ) : List (ℚ × ℕ) → List (ℚ × ℕ)
  | [] => [x]
  | y :: l => if y.2 ≤ x.2 then x :: y :: l else y :: insertDesc x l

/-- Stable sort by score descending (`scores.sort(key=lambda x: x[1],
reverse=True)`, main.py line 113). -/
def sortDesc : List (ℚ × ℕ) → List (ℚ × ℕ)
  | [] => []
  | x :: l => insertDesc x (sortDesc l)

/-- Stable insertion into an ascending list of timestamps. -/
def insertAsc (x : ℚ) : List ℚ → List ℚ
  | [] => [x]
  | y :: l => if x ≤ y then x :: y :: l else y :: insertAsc x l

/-- Python `sorted` on the selected peaks (main.py line 122). -/
def sortAsc : List ℚ → List ℚ
  | [] => []
  | x :: l => insertAsc x (sortAsc l)

/-- The greedy selection loop (main.py lines 116-120): walk the ranked
samples; stop once `num_clips` peaks are kept; keep a candidate whose raw
timestamp is more than 30 s from every already-kept (lead-in-adjusted)
peak, recording `max(0, timestamp - 1)`. -/
def select : List (ℚ × ℕ) → ℕ → List ℚ → List ℚ
  | [], _, acc => acc
  | (t, _) :: rest, n, acc =>
    if n ≤ acc.length then acc
    else if _h : ∀ p ∈ acc, (30 : ℚ) < |t - p| then
      select rest n (acc ++ [max 0 (t - 1)])
    else
      select rest n acc

/-- The fixed degraded fallback timestamp list (main.py lines 86 and 122). -/
def fallback_peaks : List ℚ := [5, 15, 25, 35]

/-- The recorded samples of the scan phase, given the first frame `f0`
read at main.py line 83. -/
def detect_samples (v : Video) (f0 : Frame) : List (ℚ × ℕ) :=
  scan (strideRange v.total_frames (detect_step (effFps v))) v.frames (effFps v) f0

/-- The peaks selected from the ranked samples, sorted ascending is not
yet applied here; this is the `peaks` list right after the selection loop. -/
def detect_raw_peaks (v : Video) (f0 : Frame) (n : ℕ) : List ℚ :=
  select (sortDesc (detect_samples v f0)) n []

/-- `detect_visual_peaks` (main.py lines 71-122). -/
def detect_visual_peaks (v : Video) (n : ℕ := 4) : List ℚ :=
  match v.frames.get? 0 with
  | none => fallback_peaks
  | some f0 =>
    let ps := detect_raw_peaks v f0 n
    if ps = [] then fallback_peaks else sortAsc ps

/-- The job status values written to the Job Store: the strings
"starting", "processing", "Processing clip k", "done", "error" of
main.py. -/
inductive Status where
  | starting
  | processing
  | processingClip (k : ℕ)
  | done
  | error
deriving DecidableEq

/-- One entry of the `generated_clips` list (main.py lines 158-161). -/
structure ClipResult where
  name : String
  url : String
deriving DecidableEq

/-- One Job Store entry `jobs[job_id]`.  A dict with no "clips" key is
modelled by `clips = []`. -/
structure JobEntry where
  status : Status
  clips : List ClipResult
deriving DecidableEq

/-- Python `str` applied to the numeric seek offset (main.py line 142);
the exact textual form of the number is immaterial to the claims. -/
def pyStr (q : ℚ) : String :=
  toString q.num ++ (if q.den = 1 then "" else "/" ++ toString q.den)

/-- The clip file name `f"{job_id}_clip{index + 1}.mp4"` (line 137). -/
def clip_name (job : String) (idx : ℕ) : String :=
  job ++ "_clip" ++ toString (idx + 1) ++ ".mp4"

/-- `os.path.join(CLIPS_DIR, clip_name)` (line 138), with `CLIPS_DIR`
abstracted to the "clips/" prefix. -/
def clip_output_path (job : String) (idx : ℕ) : String :=
  "clips/" ++ clip_name job idx

/-- The external-encoder command line built at main.py lines 140-151. -/
def ffmpeg_cmd (start : ℚ) (input_video out : String) : List String :=
  ["ffmpeg", "-y",
   "-ss", pyStr start,
   "-t", "10",
   "-i", input_video,
   "-vf", "crop=ih*(9/16):ih,scale=720:1280",
   "-c:v", "libx264",
   "-preset", "ultrafast",
   "-crf", "28",
   "-c:a", "aac",
   out]

/-- The ClipResult appended after a successful extraction (lines 158-161). -/
def clip_result (job : String) (idx : ℕ) : ClipResult :=
  { name := "Clip " ++ toString (idx + 1)
    url := "https://ai-clip-gen-3.onrender.com/stream/" ++ clip_name job idx }

/-- The per-clip loop of `process_video` (main.py lines 134-161).  Returns
the sequence of Job Store writes made during the loop and, if every
encoder invocation returned zero, the accumulated clip list; `none` means
the `raise Exception("FFmpeg failed")` at line 156 fired. -/
def clip_loop (job : String) (ffrun : List String → Bool) (input_video : String) :
    List ℚ → ℕ → List ClipResult → List JobEntry × Option (List ClipResult)
  | [], _, acc => ([], some acc)
  | start :: rest, idx, acc =>
    let e : JobEntry := { status := .processingClip (idx + 1), clips := [] }
    if ffrun (ffmpeg_cmd start input_video (clip_output_path job idx)) then
      let r := clip_loop job ffrun input_video rest (idx + 1)
        (acc ++ [clip_result job idx])
      (e :: r.1, r.2)
    else
      ([e], none)

/-- The write `jobs[job_id]["status"] = "processing"` (line 129). -/
def procEntry : JobEntry := { status := .processing, clips := [] }

/-- The write `jobs[job_id] = {"status": "error"}` (line 168). -/
def errEntry : JobEntry := { status := .error, clips := [] }

/-- The write `jobs[job_id] = {"status": "done", "clips": ...}` (line 163). -/
def doneEntry (c : List ClipResult) : JobEntry := { status := .done, clips := c }

/-- The entry `jobs[job_id] = {"status": "starting"}` seeded by
`handle_process` (line 180) before the worker thread starts. -/
def seedEntry : JobEntry := { status := .starting, clips := [] }

/-- The tail of `process_video` after the clip loop (main.py lines
163-168): on success write the done entry and `os.remove` the input file;
if the file is missing, `os.remove` raises and the `except` block
overwrites the entry with `{"status": "error"}`.  On a clip failure the
`except` block writes the error entry and does not touch the input file. -/
def finish_writes (fs : List String) (input_video : String) :
    Option (List ClipResult) → List JobEntry × List String
  | none => ([errEntry], fs)
  | some clips =>
    if input_video ∈ fs then ([doneEntry clips], fs.erase input_video)
    else ([doneEntry clips, errEntry], fs)

/-- `process_video` (main.py lines 127-168): the sequence of Job Store
writes it performs for `job_id`, and the uploads directory contents after
it finishes.  `fs` is the uploads directory on entry. -/
def process_video (job : String) (v : Video) (ffrun : List String → Bool)
    (fs : List String) (input_video : String) : List JobEntry × List String :=
  let r := clip_loop job ffrun input_video (detect_visual_peaks v 4) 0 []
  let fin := finish_writes fs input_video r.2
  (procEntry :: r.1 ++ fin.1, fin.2)

/-- The full observable sequence of values of `jobs[job_id]` for one job:
the seed written by `handle_process`, then every write of
`process_video`. -/
def observed_trace (job : String) (v : Video) (ffrun : List String → Bool)
    (fs : List String) (input_video : String) : List JobEntry :=
  seedEntry :: (process_video job v ffrun fs input_video).1

/-- The background work spawned by `handle_process`. -/
inductive Spawn where
  | processUpload (input_video : String)
  | downloadThenProcess (url : String) (input_video : String)
deriving DecidableEq

/-- The per-job input path `os.path.join(UPLOADS_DIR, f"{job_id}.mp4")`,
with `UPLOADS_DIR` abstracted to the "uploads/" prefix (line 182). -/
def upload_path (job : String) : String := "uploads/" ++ job ++ ".mp4"

/-- The synchronous part of `handle_process` (main.py lines 174-211):
seeds the Job Store with "starting" and spawns a worker thread for an
uploaded video (`if video and video.filename`), or a download-then-process
thread for a truthy url (`elif url`); with neither, no work is spawned. -/
def handle_process (hasVideo : Bool) (url : Option String) (job : String) :
    JobEntry × Option Spawn :=
  if hasVideo then (seedEntry, some (.processUpload (upload_path job)))
  else
    match url with
    | some u =>
      if u = "" then (seedEntry, none)
      else (seedEntry, some (.downloadThenProcess u (upload_path job)))
    | none => (seedEntry, none)

/-- Rank of a status in the §4.3 state machine: starting, processing (the
"Processing clip k" strings are a cosmetic sub-state of processing), then
the terminal states. -/
def statusRank : Status → ℕ
  | .starting => 0
  | .processing => 1
  | .processingClip _ => 1
  | .done => 2
  | .error => 2

/-- A terminal status of the §4.3 state machine. -/
def isTerminal (s : Status) : Prop := s = .done ∨ s = .error

instance (s : Status) : Decidable (isTerminal s) := by
  unfold isTerminal; infer_instance

/-- A video with no decodable frame at all. -/
def emptyVid : Video := { fps := 30, total_frames := 0, frames := [] }

/-- A one-frame video: the scan records the single sample `(0, 0)`. -/
def tinyVid : Video := { fps := 1, total_frames := 1, frames := [[0]] }

/-- A video whose metadata reports zero frames although frame 0 decodes:
the scan loop body never runs, so the selection gets no candidates. -/
def zeroTotalVid : Video := { fps := 1, total_frames := 0, frames := [[0]] }

/-- A three-frame video at 1 fps: samples `(0, 0)` and `(2, 3)`. -/
def motionVid : Video := { fps := 1, total_frames := 3, frames := [[0], [7], [3]] }

/-- A 131-frame video at 1 fps, still except for bursts of motion at
frames 100 and 130.  Samples land on even frame numbers; the ranked list
starts `(100, 10), (102, 10), (130, 5), ...` and the greedy selection
keeps timestamps 100 and 130, reporting 99 and 129 - only 30 s apart. -/
def burstVid : Video :=
  { fps := 1
    total_frames := 131
    frames := (List.range 131).map
      (fun i => if i = 100 then [10] else if i = 130 then [5] else [0]) }

theorem absdiffSum_self (f : Frame) : absdiffSum f f = 0 := by
  induction f with
  | nil => rfl
  | cons x xs ih =>
    simp only [absdiffSum, List.zipWith, List.sum_cons] at ih ⊢
    omega

theorem insertAsc_perm (x : ℚ) (l : List ℚ) : (insertAsc x l).Perm (x :: l) := by
  induction l with
  | nil => exact List.Perm.refl _
  | cons y l ih =>
    by_cases h : x ≤ y
    · simp [insertAsc, h]
    · simp only [insertAsc, if_neg h]
      exact (ih.cons y).trans (List.Perm.swap x y l)

theorem sortAsc_perm (l : List ℚ) : (sortAsc l).Perm l := by
  induction l with
  | nil => exact List.Perm.refl _
  | cons x l ih => exact (insertAsc_perm x (sortAsc l)).trans (ih.cons x)

theorem insertAsc_sorted (x : ℚ) (l : List ℚ) (h : List.Sorted (· ≤ ·) l) :
    List.Sorted (· ≤ ·) (insertAsc x l) := by
  induction l with
  | nil => simp [insertAsc]
  | cons y l ih =>
    rcases List.sorted_cons.mp h with ⟨hy, hl⟩
    by_cases hxy : x ≤ y
    · rw [insertAsc, if_pos hxy]
      refine List.sorted_cons.mpr ⟨?_, h⟩
      intro b hb
      rcases List.mem_cons.mp hb with rfl | hb
      · exact hxy
      · exact hxy.trans (hy b hb)
    · rw [insertAsc, if_neg hxy]
      refine List.sorted_cons.mpr ⟨?_, ih hl⟩
      intro b hb
      rcases List.mem_cons.mp ((insertAsc_perm x l).mem_iff.mp hb) with rfl | hb
      · exact le_of_not_le hxy
      · exact hy b hb

theorem sortAsc_sorted (l : List ℚ) : List.Sorted (· ≤ ·) (sortAsc l) := by
  induction l with
  | nil => simp [sortAsc]
  | cons x l ih => exact insertAsc_sorted x (sortAsc l) ih

theorem insertDesc_perm (x : ℚ × ℕ) (l : List (ℚ × ℕ)) :
    (insertDesc x l).Perm (x :: l) := by
  induction l with
  | nil => exact List.Perm.refl _
  | cons y l ih =>
    by_cases h : y.2 ≤ x.2
    · simp [insertDesc, h]
    · simp only [insertDesc, if_neg h]
      exact (ih.cons y).trans (List.Perm.swap x y l)

theorem sortDesc_perm (l : List (ℚ × ℕ)) : (sortDesc l).Perm l := by
  induction l with
  | nil => exact List.Perm.refl _
  | cons x l ih => exact (insertDesc_perm x (sortDesc l)).trans (ih.cons x)

theorem insertDesc_pairwise (x : ℚ × ℕ) (l : List (ℚ × ℕ))
    (h : List.Pairwise (fun a b => b.2 ≤ a.2) l) :
    List.Pairwise (fun a b => b.2 ≤ a.2) (insertDesc x l) := by
  induction l with
  | nil => simp [insertDesc]
  | cons y l ih =>
    rcases List.pairwise_cons.mp h with ⟨hy, hl⟩
    by_cases hxy : y.2 ≤ x.2
    · rw [insertDesc, if_pos hxy]
      refine List.pairwise_cons.mpr ⟨?_, h⟩
      intro b hb
      rcases List.mem_cons.mp hb with rfl | hb
      · exact hxy
      · exact (hy b hb).trans hxy
    · rw [insertDesc, if_neg hxy]
      refine List.pairwise_cons.mpr ⟨?_, ih hl⟩
      intro b hb
      rcases List.mem_cons.mp ((insertDesc_perm x l).mem_iff.mp hb) with rfl | hb
      · exact le_of_not_le hxy
      · exact hy b hb

theorem sortDesc_pairwise (l : List (ℚ × ℕ)) :
    List.Pairwise (fun a b => b.2 ≤ a.2) (sortDesc l) := by
  induction l with
  | nil => simp [sortDesc]
  | cons x l ih => exact insertDesc_pairwise x (sortDesc l) ih

theorem select_nonneg (ranked : List (ℚ × ℕ)) (n : ℕ) :
    ∀ acc : List ℚ, (∀ p ∈ acc, 0 ≤ p) → ∀ p ∈ select ranked n acc, 0 ≤ p := by
  induction ranked with
  | nil => intro acc h0 p hp; exact h0 p hp
  | cons ts rest ih =>
    obtain ⟨t, s⟩ := ts
    intro acc h0 p hp
    rw [select] at hp
    by_cases hlen : n ≤ acc.length
    · rw [if_pos hlen] at hp; exact h0 p hp
    · rw [if_neg hlen] at hp
      by_cases hall : ∀ q ∈ acc, (30 : ℚ) < |t - q|
      · rw [dif_pos hall] at hp
        refine ih _ ?_ p hp
        intro q hq
        rcases List.mem_append.mp hq with hq | hq
        · exact h0 q hq
        · rw [List.mem_singleton.mp hq]; exact le_max_left 0 (t - 1)
      · rw [dif_neg hall] at hp; exact ih _ h0 p hp

theorem sep_adjust {t a : ℚ} (ht : 0 ≤ t) (ha : 0 ≤ a) (h : (30 : ℚ) < |t - a|) :
    (29 : ℚ) < |a - max 0 (t - 1)| := by
  rcases le_or_lt 1 t with h1 | h1
  · rw [max_eq_right (by linarith : (0 : ℚ) ≤ t - 1)]
    have htri : |a - t| ≤ |a - (t - 1)| + |(t - 1) - t| := abs_sub_le a (t - 1) t
    have hone : |(t - 1) - t| = 1 := by
      rw [show (t - 1) - t = -1 by ring]; norm_num
    rw [abs_sub_comm t a] at h
    linarith
  · rw [max_eq_left (by linarith : t - 1 ≤ (0 : ℚ)), sub_zero, abs_of_nonneg ha]
    rcases lt_abs.mp h with h2 | h2
    · linarith
    · linarith

theorem select_sep (ranked : List (ℚ × ℕ)) (n : ℕ) :
    ∀ acc : List ℚ, (∀ x ∈ ranked, 0 ≤ x.1) → (∀ p ∈ acc, 0 ≤ p) →
      List.Pairwise (fun a b => (29 : ℚ) < |a - b|) acc →
      List.Pairwise (fun a b => (29 : ℚ) < |a - b|) (select ranked n acc) := by
  induction ranked with
  | nil => intro acc _ _ hsep; exact hsep
  | cons ts rest ih =>
    obtain ⟨t, s⟩ := ts
    intro acc hts h0 hsep
    have ht : 0 ≤ t := hts (t, s) (List.mem_cons_self _ _)
    have hts' : ∀ x ∈ rest, 0 ≤ x.1 := fun x hx => hts x (List.mem_cons_of_mem _ hx)
    rw [select]
    by_cases hlen : n ≤ acc.length
    · rw [if_pos hlen]; exact hsep
    · rw [if_neg hlen]
      by_cases hall : ∀ q ∈ acc, (30 : ℚ) < |t - q|
      · rw [dif_pos hall]
        refine ih _ hts' ?_ ?_
        · intro q hq
          rcases List.mem_append.mp hq with hq | hq
          · exact h0 q hq
          · rw [List.mem_singleton.mp hq]; exact le_max_left 0 (t - 1)
        · refine List.pairwise_append.mpr ⟨hsep, List.pairwise_singleton _ _, ?_⟩
          intro a ha b hb
          rw [List.mem_singleton.mp hb]
          exact sep_adjust ht (h0 a ha) (hall a ha)
      · rw [dif_neg hall]; exact ih _ hts' h0 hsep

theorem select_length (ranked : List (ℚ × ℕ)) (n : ℕ) :
    ∀ acc : List ℚ, (select ranked n acc).length ≤ max n acc.length := by
  induction ranked with
  | nil => intro acc; exact le_max_right _ _
  | cons ts rest ih =>
    obtain ⟨t, s⟩ := ts
    intro acc
    rw [select]
    by_cases hlen : n ≤ acc.length
    · rw [if_pos hlen]; exact le_max_right _ _
    · rw [if_neg hlen]
      by_cases hall : ∀ q ∈ acc, (30 : ℚ) < |t - q|
      · rw [dif_pos hall]
        have h1 : (acc ++ [max 0 (t - 1)]).length = acc.length + 1 := by simp
        have h2 : acc.length + 1 ≤ n := Nat.succ_le_of_lt (Nat.lt_of_not_le hlen)
        calc (select rest n (acc ++ [max 0 (t - 1)])).length
            ≤ max n (acc ++ [max 0 (t - 1)]).length := ih _
          _ = n := by rw [h1]; exact max_eq_left h2
          _ ≤ max n acc.length := le_max_left _ _
      · rw [dif_neg hall]; exact ih acc

theorem scan_ts_nonneg (idxs : List ℕ) (frames : List Frame) (fps : ℚ) (hfps : 0 < fps) :
    ∀ prev, ∀ x ∈ scan idxs frames fps prev, 0 ≤ x.1 := by
  induction idxs with
  | nil => intro prev x hx; simp [scan] at hx
  | cons i rest ih =>
    intro prev x hx
    cases hf : frames.get? i with
    | none => rw [scan, hf] at hx; simp at hx
    | some f =>
      rw [scan, hf] at hx
      rcases List.mem_cons.mp hx with rfl | hx
      · exact div_nonneg (Nat.cast_nonneg i) hfps.le
      · exact ih f x hx

theorem effFps_pos (v : Video) (h : 0 ≤ v.fps) : 0 < effFps v := by
  unfold effFps
  by_cases h0 : v.fps = 0
  · rw [if_pos h0]; norm_num
  · rw [if_neg h0]; exact lt_of_le_of_ne h (Ne.symm h0)

theorem detect_visual_peaks_ne_nil (v : Video) (n : ℕ) : detect_visual_peaks v n ≠ [] := by
  unfold detect_visual_peaks
  cases v.frames.get? 0 with
  | none => simp [fallback_peaks]
  | some f0 =>
    by_cases hps : detect_raw_peaks v f0 n = []
    · simp [hps, fallback_peaks]
    · simp only [if_neg hps]
      intro hcon
      apply hps
      have hlen := (sortAsc_perm (detect_raw_peaks v f0 n)).length_eq
      rw [hcon] at hlen
      exact List.length_eq_zero.mp hlen.symm

theorem clip_loop_entries (job : String) (ffrun : List String → Bool) (iv : String) :
    ∀ (peaks : List ℚ) (idx : ℕ) (acc : List ClipResult),
      ∀ e ∈ (clip_loop job ffrun iv peaks idx acc).1,
        ∃ k, e = { status := .processingClip k, clips := [] } := by
  intro peaks
  induction peaks with
  | nil => intro idx acc e he; simp [clip_loop] at he
  | cons st rest ih =>
    intro idx acc e he
    simp only [clip_loop] at he
    by_cases hr : ffrun (ffmpeg_cmd st iv (clip_output_path job idx))
    · rw [if_pos hr] at he
      rcases List.mem_cons.mp he with rfl | he
      · exact ⟨idx + 1, rfl⟩
      · exact ih _ _ e he
    · rw [if_neg hr] at he
      rw [List.mem_singleton.mp he]
      exact ⟨idx + 1, rfl⟩

theorem clip_loop_some_length (job : String) (ffrun : List String → Bool) (iv : String) :
    ∀ (peaks : List ℚ) (idx : ℕ) (acc c : List ClipResult),
      (clip_loop job ffrun iv peaks idx acc).2 = some c →
      c.length = acc.length + peaks.length := by
  intro peaks
  induction peaks with
  | nil =>
    intro idx acc c h
    simp only [clip_loop, Option.some.injEq] at h
    rw [← h]; simp
  | cons st rest ih =>
    intro idx acc c h
    simp only [clip_loop] at h
    by_cases hr : ffrun (ffmpeg_cmd st iv (clip_output_path job idx))
    · rw [if_pos hr] at h
      have := ih (idx + 1) (acc ++ [clip_result job idx]) c h
      simp only [List.length_append, List.length_cons, List.length_nil] at this ⊢
      omega
    · rw [if_neg hr] at h; simp at h

theorem observed_trace_eq (job : String) (v : Video) (ffrun : List String → Bool)
    (fs : List String) (input_video : String) :
    observed_trace job v ffrun fs input_video =
      seedEntry :: procEntry ::
        ((clip_loop job ffrun input_video (detect_visual_peaks v 4) 0 []).1
          ++ (finish_writes fs input_video
                (clip_loop job ffrun input_video (detect_visual_peaks v 4) 0 []).2).1) := by
  rfl

theorem process_fs_eq (job : String) (v : Video) (ffrun : List String → Bool)
    (fs : List String) (input_video : String) :
    (process_video job v ffrun fs input_video).2 =
      (finish_writes fs input_video
        (clip_loop job ffrun input_video (detect_visual_peaks v 4) 0 []).2).2 := by
  rfl

theorem terminal_last_aux :
    ∀ (front : List JobEntry) (z : JobEntry),
      (∀ e ∈ front, ¬ isTerminal e.status) →
      ∀ (l₁ : List JobEntry) (e : JobEntry) (l₂ : List JobEntry),
        front ++ [z] = l₁ ++ e :: l₂ → isTerminal e.status → l₂ = [] := by
  intro front
  induction front with
  | nil =>
    intro z _ l₁ e l₂ heq _
    cases l₁ with
    | nil =>
      rw [List.nil_append, List.nil_append] at heq
      exact (List.cons.injEq .. ▸ heq).2.symm
    | cons a t =>
      rw [List.nil_append, List.cons_append] at heq
      have := (List.cons.injEq .. ▸ heq).2
      exact absurd this.symm (List.append_ne_nil_of_right_ne_nil t (List.cons_ne_nil e l₂))
  | cons f fr ih =>
    intro z hf l₁ e l₂ heq hterm
    cases l₁ with
    | nil =>
      rw [List.nil_append] at heq
      have h1 := (List.cons.injEq .. ▸ heq).1
      exact absurd hterm (h1 ▸ hf f (List.mem_cons_self _ _))
    | cons a t =>
      rw [List.cons_append, List.cons_append] at heq
      have h2 := (List.cons.injEq .. ▸ heq).2
      exact ih z (fun e' he' => hf e' (List.mem_cons_of_mem _ he')) t e l₂ h2 hterm

theorem sorted_ones_append_two (l : List ℕ) (h : ∀ x ∈ l, x = 1) :
    List.Sorted (· ≤ ·) (l ++ [2]) := by
  induction l with
  | nil => simp
  | cons x xs ih =>
    rw [List.cons_append]
    refine List.sorted_cons.mpr ⟨?_, ih (fun y hy => h y (List.mem_cons_of_mem _ hy))⟩
    intro b hb
    have hx : x = 1 := h x (List.mem_cons_self _ _)
    rcases List.mem_append.mp hb with hb | hb
    · rw [hx, h b (List.mem_cons_of_mem _ hb)]
    · rw [List.mem_singleton.mp hb, hx]; omega

theorem sorted_rank_trace (l : List ℕ) (h : ∀ x ∈ l, x = 1) :
    List.Sorted (· ≤ ·) (0 :: 1 :: (l ++ [2])) := by
  refine List.sorted_cons.mpr ⟨fun b _ => Nat.zero_le b, ?_⟩
  refine List.sorted_cons.mpr ⟨?_, sorted_ones_append_two l h⟩
  intro b hb
  rcases List.mem_append.mp hb with hb | hb
  · rw [h b hb]
  · rw [List.mem_singleton.mp hb]; omega

theorem not_terminal_starting : ¬ isTerminal Status.starting := by
  rintro (h | h) <;> exact Status.noConfusion h

theorem not_terminal_processing : ¬ isTerminal Status.processing := by
  rintro (h | h) <;> exact Status.noConfusion h

theorem not_terminal_processingClip (k : ℕ) : ¬ isTerminal (Status.processingClip k) := by
  rintro (h | h) <;> exact Status.noConfusion h

theorem detect_step_pos (fps : ℚ) : 0 < detect_step fps := by
  unfold detect_step
  have h1 : (1 : ℤ) ≤ max 1 (pyInt (fps * 2)) := le_max_left _ _
  omega

theorem strideRange_head (total st : ℕ) (h : 0 < total) (hst : 0 < st) :
    ∃ rest, strideRange total st = 0 :: rest := by
  unfold strideRange
  have hq : 0 < (total + st - 1) / st := Nat.div_pos (by omega) hst
  obtain ⟨m, hm⟩ := Nat.exists_eq_succ_of_ne_zero (Nat.pos_iff_ne_zero.mp hq)
  rw [hm, List.range_succ_eq_map]
  refine ⟨List.map (fun k => k * st) (List.map Nat.succ (List.range m)), ?_⟩
  rw [List.map_cons, Nat.zero_mul]

theorem desc_split (l : List (ℚ × ℕ)) (hs : List.Pairwise (fun a b => b.2 ≤ a.2) l) :
    ∃ l₁ l₂, l = l₁ ++ l₂ ∧ (∀ p ∈ l₁, 0 < p.2) ∧ (∀ p ∈ l₂, p.2 = 0) := by
  induction l with
  | nil => exact ⟨[], [], rfl, by simp, by simp⟩
  | cons x xs ih =>
    rcases List.pairwise_cons.mp hs with ⟨hx, hxs⟩
    rcases Nat.eq_zero_or_pos x.2 with hx0 | hx0
    · refine ⟨[], x :: xs, rfl, by simp, ?_⟩
      intro p hp
      rcases List.mem_cons.mp hp with rfl | hp
      · exact hx0
      · exact Nat.le_zero.mp (hx0 ▸ hx p hp)
    · obtain ⟨l₁, l₂, heq, h₁, h₂⟩ := ih hxs
      refine ⟨x :: l₁, l₂, by rw [List.cons_append, ← heq], ?_, h₂⟩
      intro p hp
      rcases List.mem_cons.mp hp with rfl | hp
      · exact hx0
      · exact h₁ p hp

theorem pyInt_eq_floor (q : ℚ) (h : 0 ≤ q) : pyInt q = ⌊q⌋ := by
  unfold pyInt
  have hnum : 0 ≤ q.num := Rat.num_nonneg.mpr h
  rw [Int.tdiv_eq_ediv hnum (Int.natCast_nonneg q.den), Rat.floor_def]

/-- C3 (code at the failing input): a job created with neither an uploaded
video nor a url is seeded with status "starting" and no background worker
is spawned, so nothing ever moves it to a terminal state; the spec demands
it reach `error`. -/
theorem C3_no_input_job_stuck_starting :
    handle_process false none "j" = (seedEntry, none) ∧ seedEntry.status = .starting := by
  exact ⟨rfl, rfl⟩

/-- C5 (counterexample): on `burstVid` the detector runs real analysis
(frame 0 decodes and the selection is non-empty) and returns the four
timestamps 0, 31, 99, 129, of which 99 and 129 are exactly 30 seconds
apart — not more than 30, as the claim requires. -/
theorem C5_counterexample :
    burstVid.frames.get? 0 = some [0] ∧
    detect_raw_peaks burstVid [0] 4 ≠ [] ∧
    detect_visual_peaks burstVid 4 = [0, 31, 99, 129] ∧
    ¬ List.Pairwise (fun a b => (30 : ℚ) < |a - b|) (detect_visual_peaks burstVid 4) := by
  refine ⟨by with_unfolding_all rfl, of_decide_eq_true (by with_unfolding_all rfl),
    by with_unfolding_all rfl, of_decide_eq_true (by with_unfolding_all rfl)⟩

/-- C5 (amended): the selection loop compares each candidate's raw
timestamp against the previously kept, lead-in-adjusted timestamps, so
what the returned (adjusted) timestamps are guaranteed is pairwise
separation strictly greater than 29 seconds, not 30. -/
theorem C5_returned_timestamps_separated (v : Video) (n : ℕ) (f0 : Frame)
    (hfps : 0 ≤ v.fps) (h0 : v.frames.get? 0 = some f0)
    (hne : detect_raw_peaks v f0 n ≠ []) :
    List.Pairwise (fun a b => (29 : ℚ) < |a - b|) (detect_visual_peaks v n) := by
  have hEff : 0 < effFps v := effFps_pos v hfps
  have hts : ∀ x ∈ sortDesc (detect_samples v f0), 0 ≤ x.1 := by
    intro x hx
    have hx' : x ∈ scan (strideRange v.total_frames (detect_step (effFps v)))
        v.frames (effFps v) f0 :=
      (sortDesc_perm (detect_samples v f0)).mem_iff.mp hx
    exact scan_ts_nonneg _ _ _ hEff f0 x hx'
  have hsel := select_sep (sortDesc (detect_samples v f0)) n [] hts
    (by simp) List.Pairwise.nil
  have hdet : detect_visual_peaks v n = sortAsc (detect_raw_peaks v f0 n) := by
    unfold detect_visual_peaks
    rw [h0]
    simp [hne]
  rw [hdet]
  refine ((sortAsc_perm (detect_raw_peaks v f0 n)).pairwise_iff ?_).mpr hsel
  intro a b hab
  rwa [abs_sub_comm]

/-- C5 (witness): a one-frame video takes the real-analysis path and its
returned timestamps are pairwise more than 29 seconds apart. -/
theorem C5_witness :
    List.Pairwise (fun a b => (29 : ℚ) < |a - b|) (detect_visual_peaks tinyVid 4) :=
  C5_returned_timestamps_separated tinyVid 4 [0] (by norm_num [tinyVid]) rfl
    (of_decide_eq_true (by with_unfolding_all rfl))

/-- C6 (counterexample): at a frame rate of 2.95 fps the code's stride
`max(1, int(fps * 2))` is 5 (truncation of 5.9), while the claimed
`round(fps * 2)` is 6, so the stride is not the nearest integer. -/
theorem C6_counterexample :
    detect_step (59 / 20) ≠ (max 1 (round ((59 : ℚ) / 20 * 2))).toNat ∧
    detect_step (59 / 20) = 5 ∧ (max 1 (round ((59 : ℚ) / 20 * 2))).toNat = 6 :=
  ⟨of_decide_eq_true (by with_unfolding_all rfl), by with_unfolding_all rfl,
    by with_unfolding_all rfl⟩

/-- C6 (amended): for every non-negative frame rate the sampling stride
equals the truncation (floor) of `fps * 2`, with a minimum of 1 — not the
nearest integer. -/
theorem C6_stride_truncates (fps : ℚ) (h : 0 ≤ fps) :
    detect_step fps = (max 1 ⌊fps * 2⌋).toNat := by
  unfold detect_step
  rw [pyInt_eq_floor _ (mul_nonneg h (by norm_num))]

/-- C6 (witness): the amended statement evaluated at 2.95 fps. -/
theorem C6_witness :
    detect_step (59 / 20) = (max 1 ⌊(59 : ℚ) / 20 * 2⌋).toNat ∧ detect_step (59 / 20) = 5 :=
  ⟨C6_stride_truncates (59 / 20) (by norm_num), by with_unfolding_all rfl⟩

/-- C7 (counterexample): a concrete extraction command contains neither
"-movflags" nor "+faststart", so the encoder invocation does not relocate
the moov metadata for early availability. -/
theorem C7_counterexample :
    "-movflags" ∉ ffmpeg_cmd 5 "uploads/j.mp4" "clips/j_clip1.mp4" ∧
    "+faststart" ∉ ffmpeg_cmd 5 "uploads/j.mp4" "clips/j_clip1.mp4" :=
  ⟨of_decide_eq_true (by with_unfolding_all rfl),
    of_decide_eq_true (by with_unfolding_all rfl)⟩

/-- C7 (amended): the extraction command encodes H.264 video and AAC
audio, but for every ClipSpec whose path and seek strings are not
themselves the flag text, it contains no "-movflags" and no "+faststart"
token; moov placement is left to the encoder default. -/
theorem C7_no_faststart_flag (start : ℚ) (iv out : String)
    (h1 : pyStr start ≠ "-movflags") (h2 : iv ≠ "-movflags") (h3 : out ≠ "-movflags")
    (h4 : pyStr start ≠ "+faststart") (h5 : iv ≠ "+faststart") (h6 : out ≠ "+faststart") :
    "-movflags" ∉ ffmpeg_cmd start iv out ∧ "+faststart" ∉ ffmpeg_cmd start iv out ∧
    "libx264" ∈ ffmpeg_cmd start iv out ∧ "aac" ∈ ffmpeg_cmd start iv out := by
  refine ⟨?_, ?_, ?_, ?_⟩
  · intro hmem
    simp only [ffmpeg_cmd, List.mem_cons, List.not_mem_nil, or_false] at hmem
    rcases hmem with h | h | h | h | h | h | h | h | h | h | h | h | h | h | h | h | h | h | h <;>
      first
      | exact absurd h (by decide)
      | exact h1 h.symm
      | exact h2 h.symm
      | exact h3 h.symm
  · intro hmem
    simp only [ffmpeg_cmd, List.mem_cons, List.not_mem_nil, or_false] at hmem
    rcases hmem with h | h | h | h | h | h | h | h | h | h | h | h | h | h | h | h | h | h | h <;>
      first
      | exact absurd h (by decide)
      | exact h4 h.symm
      | exact h5 h.symm
      | exact h6 h.symm
  · simp [ffmpeg_cmd]
  · simp [ffmpeg_cmd]

/-- C7 (witness): the amended statement at a concrete ClipSpec. -/
theorem C7_witness :
    "libx264" ∈ ffmpeg_cmd 2 "uploads/k.mp4" "clips/k_clip1.mp4" ∧
    "-movflags" ∉ ffmpeg_cmd 2 "uploads/k.mp4" "clips/k_clip1.mp4" :=
  ⟨(C7_no_faststart_flag 2 "uploads/k.mp4" "clips/k_clip1.mp4"
      (by with_unfolding_all decide) (by decide) (by decide)
      (by with_unfolding_all decide) (by decide) (by decide)).2.2.1,
    (C7_no_faststart_flag 2 "uploads/k.mp4" "clips/k_clip1.mp4"
      (by with_unfolding_all decide) (by decide) (by decide)
      (by with_unfolding_all decide) (by decide) (by decide)).1⟩

/-- C9: if no first frame can be read, or the greedy selection keeps no
candidate, the detector returns exactly the fixed fallback [5, 15, 25, 35]
(the embedding is a total function, so neither case raises). -/
theorem C9_fallback_cases (v : Video) (n : ℕ) :
    (v.frames.get? 0 = none → detect_visual_peaks v n = [5, 15, 25, 35]) ∧
    (∀ f0, v.frames.get? 0 = some f0 → detect_raw_peaks v f0 n = [] →
      detect_visual_peaks v n = [5, 15, 25, 35]) := by
  constructor
  · intro h
    unfold detect_visual_peaks
    rw [h]
    rfl
  · intro f0 h hraw
    unfold detect_visual_peaks
    rw [h]
    simp [hraw, fallback_peaks]

/-- C9 (witness): the fallback at a frameless video and at a video whose
metadata reports zero frames so that no candidate is kept. -/
theorem C9_witness :
    detect_visual_peaks emptyVid 4 = [5, 15, 25, 35] ∧
    detect_visual_peaks zeroTotalVid 4 = [5, 15, 25, 35] :=
  ⟨(C9_fallback_cases emptyVid 4).1 rfl,
    (C9_fallback_cases zeroTotalVid 4).2 [0] rfl (by with_unfolding_all rfl)⟩

theorem fallback_sorted : List.Sorted (· ≤ ·) fallback_peaks :=
  of_decide_eq_true (by with_unfolding_all rfl)

theorem fallback_nonneg : ∀ t ∈ fallback_peaks, 0 ≤ t :=
  of_decide_eq_true (by with_unfolding_all rfl)

/-- C8: the detector always returns a non-empty ascending list of
non-negative timestamps; when frame 0 decodes and the selection kept at
least one candidate (the real-analysis path), the list has at most
`num_clips` entries. -/
theorem C8_detector_output_shape (v : Video) (n : ℕ) :
    detect_visual_peaks v n ≠ [] ∧
    List.Sorted (· ≤ ·) (detect_visual_peaks v n) ∧
    (∀ t ∈ detect_visual_peaks v n, 0 ≤ t) ∧
    (∀ f0, v.frames.get? 0 = some f0 → detect_raw_peaks v f0 n ≠ [] →
      (detect_visual_peaks v n).length ≤ n) := by
  refine ⟨detect_visual_peaks_ne_nil v n, ?_, ?_, ?_⟩
  · unfold detect_visual_peaks
    cases v.frames.get? 0 with
    | none => exact fallback_sorted
    | some f0 =>
      show List.Sorted (· ≤ ·)
        (if detect_raw_peaks v f0 n = [] then fallback_peaks
          else sortAsc (detect_raw_peaks v f0 n))
      by_cases hps : detect_raw_peaks v f0 n = []
      · rw [if_pos hps]; exact fallback_sorted
      · rw [if_neg hps]; exact sortAsc_sorted _
  · intro t ht
    revert ht
    unfold detect_visual_peaks
    cases v.frames.get? 0 with
    | none => exact fallback_nonneg t
    | some f0 =>
      show t ∈ (if detect_raw_peaks v f0 n = [] then fallback_peaks
          else sortAsc (detect_raw_peaks v f0 n)) → 0 ≤ t
      by_cases hps : detect_raw_peaks v f0 n = []
      · rw [if_pos hps]; exact fallback_nonneg t
      · rw [if_neg hps]
        intro ht
        exact select_nonneg _ n [] (by simp) t ((sortAsc_perm _).mem_iff.mp ht)
  · intro f0 h0 hne
    have hdet : detect_visual_peaks v n = sortAsc (detect_raw_peaks v f0 n) := by
      unfold detect_visual_peaks
      rw [h0]
      simp [hne]
    rw [hdet, (sortAsc_perm _).length_eq]
    show (select (sortDesc (detect_samples v f0)) n []).length ≤ n
    have := select_length (sortDesc (detect_samples v f0)) n []
    simpa using this

/-- C8 (witness): the shape facts at a concrete one-frame video that takes
the real-analysis path. -/
theorem C8_witness :
    detect_visual_peaks tinyVid 4 ≠ [] ∧ (detect_visual_peaks tinyVid 4).length ≤ 4 :=
  ⟨(C8_detector_output_shape tinyVid 4).1,
    (C8_detector_output_shape tinyVid 4).2.2.2 [0] rfl
      (of_decide_eq_true (by with_unfolding_all rfl))⟩

/-- C10: when frame 0 decodes and the metadata reports at least one frame,
the first recorded sample is `(0, 0)` — the scan loop re-reads frame 0 and
diffs it against itself — and in the ranked (score-descending) list every
sample with positive motion score precedes it: the ranked list splits into
a positive-score part followed by a zero-score part containing `(0, 0)`. -/
theorem C10_first_sample_zero_score (v : Video) (f0 : Frame)
    (h0 : v.frames.get? 0 = some f0) (ht : 0 < v.total_frames) :
    (detect_samples v f0).head? = some (0, 0) ∧
    ∃ pos zeros, sortDesc (detect_samples v f0) = pos ++ zeros ∧
      (∀ p ∈ pos, 0 < p.2) ∧ (∀ p ∈ zeros, p.2 = 0) ∧ (0, 0) ∈ zeros := by
  obtain ⟨rest, hsr⟩ := strideRange_head v.total_frames (detect_step (effFps v)) ht
    (detect_step_pos _)
  have hhead : detect_samples v f0 = (0, 0) :: scan rest v.frames (effFps v) f0 := by
    unfold detect_samples
    rw [hsr, scan, h0]
    simp [absdiffSum_self]
  constructor
  · rw [hhead]; rfl
  · have hmem : (0, 0) ∈ sortDesc (detect_samples v f0) :=
      (sortDesc_perm _).mem_iff.mpr (by rw [hhead]; exact List.mem_cons_self _ _)
    obtain ⟨l₁, l₂, heq, h₁, h₂⟩ := desc_split _ (sortDesc_pairwise (detect_samples v f0))
    refine ⟨l₁, l₂, heq, h₁, h₂, ?_⟩
    rw [heq] at hmem
    rcases List.mem_append.mp hmem with hm | hm
    · exact absurd (h₁ _ hm) (lt_irrefl 0)
    · exact hm

/-- C10 (witness): the first-sample fact at a concrete three-frame video. -/
theorem C10_witness :
    (detect_samples motionVid [0]).head? = some (0, 0) :=
  (C10_first_sample_zero_score motionVid [0] rfl (by norm_num [motionVid])).1

/-- C1: for a job whose input file exists when the orchestrator runs (as
`handle_process` guarantees for both ingestion paths), the observed status
sequence is monotone in the §4.3 state machine, and a terminal entry (done
or error) only ever occurs as the last entry of the trace — no execution of
`process_video` transitions the job out of done or error. -/
theorem C1_terminal_states_final (job : String) (v : Video) (ffrun : List String → Bool)
    (fs : List String) (input_video : String) (h : input_video ∈ fs) :
    List.Sorted (· ≤ ·)
      ((observed_trace job v ffrun fs input_video).map (fun e => statusRank e.status)) ∧
    ∀ (l₁ : List JobEntry) (e : JobEntry) (l₂ : List JobEntry),
      observed_trace job v ffrun fs input_video = l₁ ++ e :: l₂ →
      isTerminal e.status → l₂ = [] := by
  have hent := clip_loop_entries job ffrun input_video (detect_visual_peaks v 4) 0 []
  have htr := observed_trace_eq job v ffrun fs input_video
  obtain ⟨z, hzrank, hzterm, hfin⟩ :
      ∃ z : JobEntry, statusRank z.status = 2 ∧ isTerminal z.status ∧
        (finish_writes fs input_video
          (clip_loop job ffrun input_video (detect_visual_peaks v 4) 0 []).2).1 = [z] := by
    cases hres : (clip_loop job ffrun input_video (detect_visual_peaks v 4) 0 []).2 with
    | none => exact ⟨errEntry, rfl, Or.inr rfl, rfl⟩
    | some c => exact ⟨doneEntry c, rfl, Or.inl rfl, by simp [finish_writes, h]⟩
  rw [hfin] at htr
  constructor
  · rw [htr]
    simp only [List.map_cons, List.map_append, List.map_nil]
    rw [hzrank]
    refine sorted_rank_trace _ ?_
    intro x hx
    rcases List.mem_map.mp hx with ⟨e, he, rfl⟩
    obtain ⟨k, rfl⟩ := hent e he
    rfl
  · rw [htr]
    intro l₁ e l₂ heq hterm
    refine terminal_last_aux
      (seedEntry :: procEntry :: (clip_loop job ffrun input_video (detect_visual_peaks v 4) 0 []).1)
      z ?_ l₁ e l₂ heq hterm
    intro e' he'
    rcases List.mem_cons.mp he' with rfl | he'
    · exact not_terminal_starting
    rcases List.mem_cons.mp he' with rfl | he'
    · exact not_terminal_processing
    obtain ⟨k, rfl⟩ := hent e' he'
    exact not_terminal_processingClip k

/-- C1 (witness): the monotone-status fact at a concrete job run whose
input file is present. -/
theorem C1_witness :
    List.Sorted (· ≤ ·)
      ((observed_trace "j" emptyVid (fun _ => true) ["u"] "u").map
        (fun e => statusRank e.status)) :=
  (C1_terminal_states_final "j" emptyVid (fun _ => true) ["u"] "u"
    (List.mem_singleton.mpr rfl)).1

/-- C4: if any clip extraction fails (the encoder oracle reports a
non-zero result, aborting the loop), the final visible Job Store entry is
the error entry with no clips; and every entry ever visible for the job
has a non-empty clips list exactly when its status is done, the done entry
being written together with its clips in one store assignment. -/
theorem C4_failed_clip_and_clips_iff (job : String) (v : Video) (ffrun : List String → Bool)
    (fs : List String) (input_video : String) :
    ((clip_loop job ffrun input_video (detect_visual_peaks v 4) 0 []).2 = none →
      (observed_trace job v ffrun fs input_video).getLast? = some errEntry) ∧
    ∀ e ∈ observed_trace job v ffrun fs input_video, (e.clips ≠ [] ↔ e.status = .done) := by
  have hent := clip_loop_entries job ffrun input_video (detect_visual_peaks v 4) 0 []
  have htr := observed_trace_eq job v ffrun fs input_video
  constructor
  · intro hres
    rw [htr, hres]
    rw [show seedEntry :: procEntry ::
          ((clip_loop job ffrun input_video (detect_visual_peaks v 4) 0 []).1
            ++ (finish_writes fs input_video none).1) =
        (seedEntry :: procEntry ::
          (clip_loop job ffrun input_video (detect_visual_peaks v 4) 0 []).1)
            ++ [errEntry] from rfl]
    exact List.getLast?_concat _
  · intro e he
    rw [htr] at he
    rcases List.mem_cons.mp he with rfl | he
    · simp [seedEntry]
    rcases List.mem_cons.mp he with rfl | he
    · simp [procEntry]
    rcases List.mem_append.mp he with he | he
    · obtain ⟨k, rfl⟩ := hent e he
      simp
    · cases hres : (clip_loop job ffrun input_video (detect_visual_peaks v 4) 0 []).2 with
      | none =>
        rw [hres] at he
        rw [List.mem_singleton.mp he]
        simp [errEntry]
      | some c =>
        rw [hres] at he
        have hc : c ≠ [] := by
          have hlen := clip_loop_some_length job ffrun input_video
            (detect_visual_peaks v 4) 0 [] c hres
          have hpk : detect_visual_peaks v 4 ≠ [] := detect_visual_peaks_ne_nil v 4
          intro hc0
          rw [hc0] at hlen
          simp only [List.length_nil] at hlen
          exact hpk (List.length_eq_zero.mp (by omega))
        by_cases hmem : input_video ∈ fs
        · rw [show (finish_writes fs input_video (some c)).1 = [doneEntry c] from
            by simp [finish_writes, hmem]] at he
          rw [List.mem_singleton.mp he]
          simpa [doneEntry] using hc
        · rw [show (finish_writes fs input_video (some c)).1 = [doneEntry c, errEntry] from
            by simp [finish_writes, hmem]] at he
          rcases List.mem_cons.mp he with rfl | he
          · simpa [doneEntry] using hc
          · rw [List.mem_singleton.mp he]
            simp [errEntry]

/-- C4 (witness): with an always-failing encoder the final visible entry
is the error entry with no clips. -/
theorem C4_witness :
    (observed_trace "j" emptyVid (fun _ => false) ["u"] "u").getLast? = some errEntry :=
  (C4_failed_clip_and_clips_iff "j" emptyVid (fun _ => false) ["u"] "u").1
    (by with_unfolding_all rfl)

/-- C2 (counterexample): a run whose first clip extraction fails ends with
the job in the error terminal state while its input file "u" is still in
the uploads directory — the error path of `process_video` performs no
deletion, contradicting the claim that the input file no longer exists
once the job is in done or error. -/
theorem C2_counterexample :
    (process_video "j" emptyVid (fun _ => false) ["u"] "u").1.getLast? = some errEntry ∧
    "u" ∈ (process_video "j" emptyVid (fun _ => false) ["u"] "u").2 :=
  ⟨by with_unfolding_all rfl, of_decide_eq_true (by with_unfolding_all rfl)⟩

/-- C2 (amended): when the input file exists on entry (and the uploads
listing has no duplicates), a job that ends done has had its input file
deleted by the single `os.remove`, while a job that ends error leaves the
uploads directory untouched, the input file still present. -/
theorem C2_input_deleted_only_on_success (job : String) (v : Video)
    (ffrun : List String → Bool) (fs : List String) (input_video : String)
    (h : input_video ∈ fs) (hnd : fs.Nodup) :
    ((∃ c, (process_video job v ffrun fs input_video).1.getLast? = some (doneEntry c)) →
      (process_video job v ffrun fs input_video).2 = fs.erase input_video ∧
        input_video ∉ (process_video job v ffrun fs input_video).2) ∧
    ((process_video job v ffrun fs input_video).1.getLast? = some errEntry →
      (process_video job v ffrun fs input_video).2 = fs ∧
        input_video ∈ (process_video job v ffrun fs input_video).2) := by
  cases hres : (clip_loop job ffrun input_video (detect_visual_peaks v 4) 0 []).2 with
  | none =>
    have h2 : (process_video job v ffrun fs input_video).2 = fs := by
      rw [process_fs_eq, hres]
      rfl
    have hlast : (process_video job v ffrun fs input_video).1.getLast? = some errEntry := by
      have h1 : (process_video job v ffrun fs input_video).1 =
          (procEntry ::
            (clip_loop job ffrun input_video (detect_visual_peaks v 4) 0 []).1)
              ++ [errEntry] := by
        show procEntry ::
            ((clip_loop job ffrun input_video (detect_visual_peaks v 4) 0 []).1
              ++ (finish_writes fs input_video
                    (clip_loop job ffrun input_video (detect_visual_peaks v 4) 0 []).2).1) = _
        rw [hres]
        rfl
      rw [h1]
      exact List.getLast?_concat _
    constructor
    · rintro ⟨c, hc⟩
      rw [hlast] at hc
      simp [errEntry, doneEntry] at hc
    · intro _
      refine ⟨h2, ?_⟩
      rw [h2]
      exact h
  | some c =>
    have h2 : (process_video job v ffrun fs input_video).2 = fs.erase input_video := by
      rw [process_fs_eq, hres]
      simp [finish_writes, h]
    have hlast : (process_video job v ffrun fs input_video).1.getLast? =
        some (doneEntry c) := by
      have h1 : (process_video job v ffrun fs input_video).1 =
          (procEntry ::
            (clip_loop job ffrun input_video (detect_visual_peaks v 4) 0 []).1)
              ++ [doneEntry c] := by
        show procEntry ::
            ((clip_loop job ffrun input_video (detect_visual_peaks v 4) 0 []).1
              ++ (finish_writes fs input_video
                    (clip_loop job ffrun input_video (detect_visual_peaks v 4) 0 []).2).1) = _
        rw [hres]
        simp [finish_writes, h]
      rw [h1]
      exact List.getLast?_concat _
    constructor
    · intro _
      refine ⟨h2, ?_⟩
      rw [h2]
      exact hnd.not_mem_erase
    · intro hc
      rw [hlast] at hc
      simp [errEntry, doneEntry] at hc

/-- C2 (witness): a fully successful run ends done and its input file is
gone from the uploads directory. -/
theorem C2_witness :
    "u" ∉ (process_video "j" emptyVid (fun _ => true) ["u"] "u").2 :=
  ((C2_input_deleted_only_on_success "j" emptyVid (fun _ => true) ["u"] "u"
      (List.mem_singleton.mpr rfl) (by simp)).1
    ⟨[clip_result "j" 0, clip_result "j" 1, clip_result "j" 2, clip_result "j" 3],
      by with_unfolding_all rfl⟩).2
